import Mathlib

/-!
Shallow embedding of the ComponentVersion controller of souleb/ocm-controller
(src/controllers/componentversion_controller.go) together with proofs about
its reconcile pipeline: the verification gate, the root-descriptor upsert,
the recursive reference expansion, and the status commit.

Modelling conventions:
* Machine state that the controller mutates through the Kubernetes client is
  an explicit `Store` value (a keyed list of persisted `ComponentDescriptor`
  records) threaded through every function.
* The external collaborators (`ocmclient.FetchVerifier`) are parameters: the
  fetcher is a function from component name and version to an optional
  descriptor (`none` models a fetch error), and the verifier outcome is an
  input of type `VerifyResult` mirroring the `(ok bool, err error)` pair.
* The unbounded Go recursion of `parseReferences` is rendered with a fuel
  argument that decreases only on nested recursive calls (one unit per stack
  frame); exhausting the fuel yields the distinguished `diverge` outcome,
  which models non-termination of the Go code.
-/

namespace Ocm

/-- Identity models `v1.Identity` (`map[string]string`), as an association
list of key/value pairs. -/
abbrev Identity := List (String × String)

/-- One element of `ocmdesc.References`: the declared child reference of a
component descriptor (`ElementMeta.Name`, `ElementMeta.Version`,
`ElementMeta.ExtraIdentity`, and `ComponentName`). -/
structure OcmReference where
  name : String
  version : String
  componentName : String
  extraIdentity : Identity
deriving DecidableEq, Repr

/-- A component descriptor as returned by
`OCMClient.GetComponentVersion(...).GetDescriptor()`. `payload` stands for
the opaque converted spec (`cd.(*compdesc.ComponentDescriptor).Spec`);
`convertsOk` models whether `DescriptorVersion.ConvertFrom` succeeds on it;
`references` is the declared child list used both for recursion and for
expansion. -/
structure Descriptor where
  name : String
  version : String
  payload : String
  convertsOk : Bool
  references : List OcmReference
deriving DecidableEq, Repr

/-- The fetcher capability `GetComponentVersion(name, version)`; `none`
models the error return. -/
abbrev Env := String → String → Option Descriptor

/-- Outcome of `OCMClient.VerifyComponent`: `errored` is `err != nil`,
`mismatch` is `ok == false` with `err == nil`, `verified` is `ok == true`. -/
inductive VerifyResult where
  | errored
  | mismatch
  | verified
deriving DecidableEq, Repr

/-- One `metav1.OwnerReference` entry, identified by the owning object's
name (owner references are namespace-local). -/
structure OwnerReference where
  name : String
deriving DecidableEq, Repr

/-- controllerutil.SetOwnerReference: upsert the owner into the owner list
(append when absent; an existing reference to the same owner is left as the
identical value). -/
def setOwnerReference (owner : OwnerReference) (refs : List OwnerReference) :
    List OwnerReference :=
  if owner ∈ refs then refs else refs ++ [owner]

/-- The spec of a persisted `v1alpha1.ComponentDescriptor`
(`ComponentDescriptorSpec`): the converted component payload and a version
string. -/
structure ComponentDescriptorSpec where
  payload : String
  version : String
deriving DecidableEq, Repr

/-- A persisted `v1alpha1.ComponentDescriptor` record: its spec, its owner
references, and whether its `ObjectMeta.CreationTimestamp` is still zero
(true only for in-memory objects never yet stored; the store sets it on
creation). -/
structure ComponentDescriptor where
  spec : ComponentDescriptorSpec
  ownerReferences : List OwnerReference
  creationTimestampIsZero : Bool
deriving DecidableEq, Repr

/-- Namespace/name key of a persisted record. -/
structure Key where
  ns : String
  name : String
deriving DecidableEq, Repr

/-- findEntry looks a key up in an entry list. -/
def findEntry : List (Key × ComponentDescriptor) → Key → Option ComponentDescriptor
  | [], _ => none
  | (k, v) :: rest, key => if k = key then some v else findEntry rest key

/-- insertEntry replaces the value at an existing key in place, or appends a
new entry. -/
def insertEntry : List (Key × ComponentDescriptor) → Key → ComponentDescriptor →
    List (Key × ComponentDescriptor)
  | [], key, v => [(key, v)]
  | (k, w) :: rest, key, v =>
    if k = key then (key, v) :: rest else (k, w) :: insertEntry rest key v

/-- The keyed persistent store of `ComponentDescriptor` records (the
Kubernetes API server, as seen through `r.Client`). -/
structure Store where
  entries : List (Key × ComponentDescriptor)
deriving DecidableEq, Repr

/-- Store.find? reads a record. -/
def Store.find? (s : Store) (k : Key) : Option ComponentDescriptor :=
  findEntry s.entries k

/-- Store.insert writes a record (replacing the record at the key if
present). -/
def Store.insert (s : Store) (k : Key) (v : ComponentDescriptor) : Store :=
  ⟨insertEntry s.entries k v⟩

/-- Result of `controllerutil.CreateOrUpdate`. -/
inductive Op where
  | created
  | updated
  | unchanged
deriving DecidableEq, Repr

/-- controllerutil.CreateOrUpdate: if the key is absent, run the mutate
function on the in-memory object and create it (the store stamps the
creation timestamp); if present, the Get overwrites the in-memory object
with the stored state, the mutate function runs on that, and an update is
issued only when it changed anything. -/
def createOrUpdate (store : Store) (key : Key) (initial : ComponentDescriptor)
    (mutate : ComponentDescriptor → ComponentDescriptor) : Store × Op :=
  match store.find? key with
  | none =>
    let obj := mutate initial
    (store.insert key { obj with creationTimestampIsZero := false }, .created)
  | some existing =>
    let obj := mutate existing
    if obj = existing then (store, .unchanged)
    else (store.insert key obj, .updated)

/-- hashNamingScheme models `hash.Hash(namingScheme, nil)` (package
github.com/mitchellh/hashstructure) applied to the anonymous struct built in
`constructComponentName`. All three of its fields (`componentName`,
`version`, `identity`) are unexported, and hashstructure skips unexported
struct fields (`if fieldType.PkgPath != "" { continue }`), so the walk
hashes nothing but the struct's type name — empty for an anonymous struct.
The result is therefore the FNV-1 64-bit hash of the empty string, i.e. the
FNV-1 64-bit offset basis 14695981039346656037, independent of every input. -/
def hashNamingScheme (_componentName _version : String) (_identity : Identity) : Nat :=
  14695981039346656037

/-- replaceSlashes models `strings.ReplaceAll(name, "/", "-")`; for a
single-character pattern this is a character-wise map. -/
def replaceSlashes (s : String) : String :=
  String.mk (s.data.map fun c => if c = '/' then '-' else c)

/-- constructComponentName builds the persisted record name
`fmt.Sprintf("%s-%s-%d", strings.ReplaceAll(name, "/", "-"), version, h)`
where `h` is the hashstructure hash of the (all-unexported) naming-scheme
struct. -/
def constructComponentName (name version : String) (identity : Identity) : String :=
  replaceSlashes name ++ "-" ++ version ++ "-" ++
    toString (hashNamingScheme name version identity)

/-- A node of the `v1alpha1.Reference` tree recorded on status: display
name, version, the `ComponentDescriptorRef` (name and namespace of the
persisted record), the extra identity, and the nested references. -/
inductive Reference where
  | mk (name version cdRefName cdRefNs : String) (extraIdentity : Identity)
       (references : List Reference)

/-- Display name field of a Reference. -/
def Reference.name : Reference → String
  | .mk n _ _ _ _ _ => n

/-- Version field of a Reference. -/
def Reference.version : Reference → String
  | .mk _ v _ _ _ _ => v

/-- Name component of the ComponentDescriptorRef of a Reference. -/
def Reference.cdRefName : Reference → String
  | .mk _ _ n _ _ _ => n

/-- Namespace component of the ComponentDescriptorRef of a Reference. -/
def Reference.cdRefNs : Reference → String
  | .mk _ _ _ ns _ _ => ns

/-- ExtraIdentity field of a Reference. -/
def Reference.extraIdentity : Reference → Identity
  | .mk _ _ _ _ i _ => i

/-- Nested references of a Reference. -/
def Reference.references : Reference → List Reference
  | .mk _ _ _ _ _ rs => rs

/-- The zero value of `v1alpha1.Reference`. -/
def Reference.zero : Reference := .mk "" "" "" "" [] []

/-- Spec of a `v1alpha1.ComponentVersion` (fields used by the controller;
shape as in the packaged CRD): component, version, re-check interval,
`references.expand`. -/
structure ComponentVersionSpec where
  component : String
  version : String
  interval : Nat
  expand : Bool
deriving DecidableEq, Repr

/-- Status of a `v1alpha1.ComponentVersion` as declared by the packaged CRD:
the resolved `componentDescriptor` Reference tree and a `verified` flag (the
schema has no conditions field). -/
structure ComponentVersionStatus where
  componentDescriptor : Reference
  verified : Bool

/-- A `v1alpha1.ComponentVersion` object: object meta (name, namespace),
spec, status. -/
structure ComponentVersion where
  name : String
  ns : String
  spec : ComponentVersionSpec
  status : ComponentVersionStatus

/-- Modelled from the spec: `ComponentVersion.GetRequeueAfter` lives in
api/v1alpha1/componentversion_types.go, which is not part of the sources;
per the specification the retry is scheduled "after the configured
interval", exactly as the packaged `Localization.GetRequeueAfter` returns
`Spec.Interval.Duration`. -/
def ComponentVersion.GetRequeueAfter (cv : ComponentVersion) : Nat :=
  cv.spec.interval

/-- A `ctrl.Result`: requeue delay in the model's time unit (`0` models the
zero value `ctrl.Result{}`). -/
structure CtrlResult where
  requeueAfter : Nat
deriving DecidableEq, Repr

/-- Error cases inside `parseReferences`. -/
inductive PErr where
  | fetch
  | convert
deriving DecidableEq, Repr

/-- Outcome of `parseReferences`: the built Reference list, a wrapped error,
or divergence of the unbounded recursion (fuel exhaustion). -/
inductive PRes where
  | ok (refs : List Reference)
  | err (e : PErr)
  | diverge

/-- Error cases of `Reconcile`/`reconcile`, mirroring the distinct wrapped
Go error values. -/
inductive RErr where
  | getComponentObject
  | verifyError
  | verifyMismatch
  | getComponentVersion
  | convertDescriptor
  | getReferences (e : PErr)
deriving DecidableEq, Repr

/-- Outcome of one reconcile invocation. -/
inductive RRes where
  | ok
  | err (e : RErr)
  | diverge
deriving DecidableEq, Repr

/-- Result of the initial `r.Client.Get` on the ComponentVersion object. -/
inductive GetResult where
  | found (component : ComponentVersion)
  | notFound
  | failed

/-- parseRefsGo is the loop body of `parseReferences`: for each declared
reference it fetches the referenced component version, converts its
descriptor, computes the record name from
`(ref.ComponentName, ref.Version, ref.ExtraIdentity)`, sets the owner
reference to `parent` on the fresh in-memory object, upserts it with an
empty mutate function ("we don't need to update it"), descends into the
child's own declared references when non-empty (the nested recursive call
is the `recurse` parameter, tied by `parseReferences`), and appends a
Reference carrying the declared name/version/identity and the record
pointer. Any failure aborts the whole walk. -/
def parseRefsGo (env : Env) (parent : ComponentVersion)
    (recurse : List OcmReference → Store → Store × PRes) :
    List OcmReference → Store → Store × PRes
  | [], store => (store, .ok [])
  | ref :: rest, store =>
    match env ref.componentName ref.version with
    | none => (store, .err .fetch)
    | some child =>
      if child.convertsOk = false then (store, .err .convert)
      else
        let key : Key :=
          ⟨parent.ns, constructComponentName ref.componentName ref.version ref.extraIdentity⟩
        let initial : ComponentDescriptor :=
          { spec := ⟨child.payload, ref.version⟩
            ownerReferences := setOwnerReference ⟨parent.name⟩ []
            creationTimestampIsZero := true }
        let store1 := (createOrUpdate store key initial id).1
        let sub : Store × PRes :=
          if child.references.isEmpty then (store1, .ok [])
          else recurse child.references store1
        match sub with
        | (store2, .ok out) =>
          match parseRefsGo env parent recurse rest store2 with
          | (store3, .ok outRest) =>
            (store3, .ok (.mk ref.name ref.version key.name key.ns ref.extraIdentity out :: outRest))
          | (store3, .err e) => (store3, .err e)
          | (store3, .diverge) => (store3, .diverge)
        | (store2, .err e) => (store2, .err e)
        | (store2, .diverge) => (store2, .diverge)

/-- parseReferences is the recursive reference expansion. The Go recursion
has no depth bound; the model carries a fuel argument spent one unit per
nested stack frame, and a walk that would descend past the fuel yields the
distinguished `diverge` outcome, modelling the Go call never returning. -/
def parseReferences (env : Env) (parent : ComponentVersion) :
    Nat → List OcmReference → Store → Store × PRes
  | 0 => parseRefsGo env parent (fun _ store => (store, .diverge))
  | fuel + 1 => parseRefsGo env parent (parseReferences env parent fuel)

/-- rootMutate is the mutate closure passed to `CreateOrUpdate` for the
root descriptor record: while the creation timestamp is zero (first
creation) it sets the owner reference to the ComponentVersion object, and
it always refreshes the spec from the freshly converted descriptor. -/
def rootMutate (ownerName : String) (spec : ComponentDescriptorSpec) :
    ComponentDescriptor → ComponentDescriptor := fun d =>
  let d' := if d.creationTimestampIsZero then
              { d with ownerReferences := setOwnerReference ⟨ownerName⟩ d.ownerReferences }
            else d
  { d' with spec := spec }

/-- reconcile is the lower-case `reconcile` method: fetch the root
descriptor, convert it, upsert the root `ComponentDescriptor` record (owner
set only while the creation timestamp is zero, spec refreshed always),
return early when `references.expand` is false, otherwise expand the
references and commit the Reference tree onto status through the patch
helper. -/
def reconcile (env : Env) (obj : ComponentVersion) (fuel : Nat) (store : Store) :
    Store × ComponentVersion × CtrlResult × RRes :=
  match env obj.spec.component obj.spec.version with
  | none => (store, obj, ⟨obj.GetRequeueAfter⟩, .err .getComponentVersion)
  | some cd =>
    if cd.convertsOk = false then (store, obj, ⟨0⟩, .err .convertDescriptor)
    else
      let key : Key := ⟨obj.ns, constructComponentName cd.name cd.version []⟩
      let initial : ComponentDescriptor :=
        { spec := ⟨"", ""⟩, ownerReferences := [], creationTimestampIsZero := true }
      let store1 := (createOrUpdate store key initial (rootMutate obj.name ⟨cd.payload, cd.version⟩)).1
      if obj.spec.expand = false then
        (store1, obj, ⟨obj.GetRequeueAfter⟩, .ok)
      else
        match parseReferences env obj fuel cd.references store1 with
        | (store2, .err e) => (store2, obj, ⟨obj.GetRequeueAfter⟩, .err (.getReferences e))
        | (store2, .diverge) => (store2, obj, ⟨0⟩, .diverge)
        | (store2, .ok out) =>
          let componentDescriptor : Reference := .mk cd.name cd.version key.name key.ns [] out
          let obj' := { obj with status := { obj.status with componentDescriptor := componentDescriptor } }
          (store2, obj', ⟨obj.GetRequeueAfter⟩, .ok)

/-- Reconcile is the exported `Reconcile` entry point: read the
ComponentVersion object (not-found ends the reconcile successfully with the
zero result), run the verification gate (either failure kind aborts with a
distinct error and a retry after the configured interval), then run the
inner `reconcile`. -/
def Reconcile (env : Env) (verify : VerifyResult) (get : GetResult) (fuel : Nat)
    (store : Store) : Store × Option ComponentVersion × CtrlResult × RRes :=
  match get with
  | .notFound => (store, none, ⟨0⟩, .ok)
  | .failed => (store, none, ⟨0⟩, .err .getComponentObject)
  | .found component =>
    match verify with
    | .errored => (store, some component, ⟨component.GetRequeueAfter⟩, .err .verifyError)
    | .mismatch => (store, some component, ⟨component.GetRequeueAfter⟩, .err .verifyMismatch)
    | .verified =>
      match reconcile env component fuel store with
      | (s, o, r, e) => (s, some o, r, e)

/-- StoreSub a b holds when every record present in `a` is present in `b`
with the identical value. -/
def StoreSub (a b : Store) : Prop :=
  ∀ k v, a.find? k = some v → b.find? k = some v

mutual

/-- Mirrors env out ref holds when the produced Reference `out` carries the
declared name and version of the source reference `ref`, and its nested
list mirrors — elementwise and in order — the child list declared by the
descriptor the fetcher returns for `ref`. -/
inductive Mirrors (env : Env) : Reference → OcmReference → Prop where
  | mk (n v cdn cdns : String) (eid : Identity) (outs : List Reference)
       (ref : OcmReference) (child : Descriptor) :
      env ref.componentName ref.version = some child →
      n = ref.name → v = ref.version →
      MirrorsList env outs child.references →
      Mirrors env (.mk n v cdn cdns eid outs) ref

/-- MirrorsList env outs refs relates produced References and declared
references pointwise, preserving order and length. -/
inductive MirrorsList (env : Env) : List Reference → List OcmReference → Prop where
  | nil : MirrorsList env [] []
  | cons {o : Reference} {r : OcmReference} {os : List Reference} {rs : List OcmReference} :
      Mirrors env o r → MirrorsList env os rs → MirrorsList env (o :: os) (r :: rs)

end

/-! Concrete fixtures used by witnesses and counterexamples. -/

/-- Descriptor of a root whose three children are declared in the order
A, B, C. -/
def abcRootDescriptor : Descriptor :=
  ⟨"comp/root", "v1", "ROOT", true,
   [⟨"A", "v1", "comp/a", []⟩, ⟨"B", "v1", "comp/b", []⟩, ⟨"C", "v1", "comp/c", [("pos", "1")]⟩]⟩

/-- A three-child root: children declared in the order A, B, C. -/
def abcEnv : Env := fun n _v =>
  match n with
  | "comp/root" => some abcRootDescriptor
  | "comp/a" => some ⟨"comp/a", "v1", "PA", true, []⟩
  | "comp/b" => some ⟨"comp/b", "v1", "PB", true, []⟩
  | "comp/c" => some ⟨"comp/c", "v1", "PC", true, []⟩
  | _ => none

/-- The root ComponentVersion object used with `abcEnv`. -/
def abcRoot : ComponentVersion :=
  ⟨"root-obj", "default", ⟨"comp/root", "v1", 10, true⟩, ⟨Reference.zero, false⟩⟩

/-- A two-level chain: the root references A, and A's descriptor references
B — so B is reached with A, not the root, as its immediate graph parent. -/
def chainEnv : Env := fun n _v =>
  match n with
  | "comp/a" => some ⟨"comp/a", "v1", "PA", true, [⟨"B", "v1", "comp/b", []⟩]⟩
  | "comp/b" => some ⟨"comp/b", "v1", "PB", true, []⟩
  | _ => none

/-- The declared root-level reference to A in `chainEnv`. -/
def chainRefA : OcmReference := ⟨"A", "v1", "comp/a", []⟩

/-- A self-referencing component: its descriptor declares a reference back
to itself, so the source reference graph has a cycle. -/
def cycleRef : OcmReference := ⟨"self", "v", "comp/cyc", []⟩

/-- Descriptor of the cyclic component. -/
def cycleDescriptor : Descriptor := ⟨"comp/cyc", "v", "P", true, [cycleRef]⟩

/-- Fetcher for the cyclic component. -/
def cycleEnv : Env := fun n _v =>
  match n with
  | "comp/cyc" => some cycleDescriptor
  | _ => none

/-- Root object used for expansion fixtures. -/
def plainRoot : ComponentVersion :=
  ⟨"root-obj", "default", ⟨"comp/a", "v1", 1, true⟩, ⟨Reference.zero, false⟩⟩

/-- Fetcher serving a child whose freshly fetched payload is "NEW". -/
def newPayloadEnv : Env := fun n _v =>
  match n with
  | "comp/c" => some ⟨"comp/c", "v1", "NEW", true, []⟩
  | _ => none

/-- The declared reference to the `newPayloadEnv` child. -/
def cRef : OcmReference := ⟨"c", "v1", "comp/c", []⟩

/-- The record key the expansion computes for `cRef` in namespace
"default". -/
def cKey : Key := ⟨"default", constructComponentName "comp/c" "v1" []⟩

/-- A stale persisted record at `cKey`: payload "OLD", already owned by a
different owner, creation timestamp set. -/
def staleRecord : ComponentDescriptor := ⟨⟨"OLD", "v0"⟩, [⟨"other-owner"⟩], false⟩

/-- A root ComponentVersion with `references.expand = false` whose current
status carries a stale, non-empty Reference tree. -/
def noExpandRoot : ComponentVersion :=
  ⟨"root-obj", "default", ⟨"comp/root", "v1", 10, false⟩,
   ⟨Reference.mk "stale" "v0" "gone" "default" [] [Reference.zero], true⟩⟩

/-- A ComponentVersion whose status is the zero value, used for the
verification-gate fixtures. -/
def verifyRoot : ComponentVersion :=
  ⟨"root-obj", "default", ⟨"comp/root", "v1", 7, true⟩, ⟨Reference.zero, false⟩⟩

/-- The record key the expansion computes for component `comp/b` at version
`v1` in namespace "default". -/
def bKey : Key := ⟨"default", constructComponentName "comp/b" "v1" []⟩

/-- A rank function witnessing that `chainEnv`'s reference graph is acyclic:
A (which references B) ranks above everything else. -/
def chainRank : String → String → Nat := fun n _v => if n = "comp/a" then 1 else 0

/-- A root ComponentVersion tracking `comp/c` with expansion disabled. -/
def newPayloadRoot : ComponentVersion :=
  ⟨"root-obj", "default", ⟨"comp/c", "v1", 1, false⟩, ⟨Reference.zero, false⟩⟩

/-! ### Store lemmas -/

theorem findEntry_insertEntry_self (l : List (Key × ComponentDescriptor)) (k : Key)
    (v : ComponentDescriptor) : findEntry (insertEntry l k v) k = some v := by
  induction l with
  | nil => simp [insertEntry, findEntry]
  | cons hd tl ih =>
    obtain ⟨k', w⟩ := hd
    by_cases h : k' = k <;> simp [insertEntry, findEntry, h, ih]

theorem findEntry_insertEntry_ne (l : List (Key × ComponentDescriptor)) (k k' : Key)
    (v : ComponentDescriptor) (h : k' ≠ k) :
    findEntry (insertEntry l k v) k' = findEntry l k' := by
  induction l with
  | nil => simp [insertEntry, findEntry, Ne.symm h]
  | cons hd tl ih =>
    obtain ⟨k'', w⟩ := hd
    by_cases hk : k'' = k
    · subst hk
      simp [insertEntry, findEntry, Ne.symm h]
    · simp [insertEntry, findEntry, hk, ih]

theorem insertEntry_length_of_found (l : List (Key × ComponentDescriptor)) (k : Key)
    (v w : ComponentDescriptor) (h : findEntry l k = some w) :
    (insertEntry l k v).length = l.length := by
  induction l with
  | nil => simp [findEntry] at h
  | cons hd tl ih =>
    obtain ⟨k', w'⟩ := hd
    by_cases hk : k' = k
    · simp [insertEntry, hk]
    · simp only [findEntry, if_neg hk] at h
      simp [insertEntry, hk, ih h]

theorem Store.find?_insert_self (s : Store) (k : Key) (v : ComponentDescriptor) :
    (s.insert k v).find? k = some v :=
  findEntry_insertEntry_self s.entries k v

theorem Store.find?_insert_ne (s : Store) (k k' : Key) (v : ComponentDescriptor)
    (h : k' ≠ k) : (s.insert k v).find? k' = s.find? k' :=
  findEntry_insertEntry_ne s.entries k k' v h

/-! ### Owner-reference lemmas -/

theorem setOwnerReference_mem (o : OwnerReference) (l : List OwnerReference) :
    o ∈ setOwnerReference o l := by
  by_cases h : o ∈ l <;> simp [setOwnerReference, h]

theorem setOwnerReference_idem (o : OwnerReference) (l : List OwnerReference) :
    setOwnerReference o (setOwnerReference o l) = setOwnerReference o l := by
  by_cases h : o ∈ l <;> simp [setOwnerReference, h]

theorem setOwnerReference_nil (o : OwnerReference) :
    setOwnerReference o [] = [o] := by
  simp [setOwnerReference]

/-! ### CreateOrUpdate lemmas -/

theorem createOrUpdate_preserve_ne (s : Store) (k : Key) (init : ComponentDescriptor)
    (m : ComponentDescriptor → ComponentDescriptor) (k' : Key) (h : k' ≠ k) :
    ((createOrUpdate s k init m).1).find? k' = s.find? k' := by
  unfold createOrUpdate
  cases hf : s.find? k with
  | none => simp [Store.find?_insert_ne _ _ _ _ h]
  | some e =>
    by_cases he : m e = e <;> simp [he, Store.find?_insert_ne _ _ _ _ h]

theorem createOrUpdate_id_of_found (s : Store) (k : Key) (init e : ComponentDescriptor)
    (h : s.find? k = some e) : createOrUpdate s k init id = (s, .unchanged) := by
  unfold createOrUpdate
  rw [h]
  simp

theorem createOrUpdate_id_of_missing (s : Store) (k : Key) (init : ComponentDescriptor)
    (h : s.find? k = none) :
    createOrUpdate s k init id =
      (s.insert k { init with creationTimestampIsZero := false }, .created) := by
  unfold createOrUpdate
  rw [h]
  simp

theorem createOrUpdate_id_preserve (s : Store) (k : Key) (init : ComponentDescriptor)
    (k' : Key) (v : ComponentDescriptor) (h : s.find? k' = some v) :
    ((createOrUpdate s k init id).1).find? k' = some v := by
  by_cases hk : k' = k
  · subst hk
    cases hf : s.find? k' with
    | none => rw [hf] at h; cases h
    | some e =>
      rw [createOrUpdate_id_of_found s k' init e hf]
      simpa using h
  · rw [createOrUpdate_preserve_ne s k init id k' hk]
    exact h

theorem createOrUpdate_id_find_self (s : Store) (k : Key) (init : ComponentDescriptor) :
    ∃ w, ((createOrUpdate s k init id).1).find? k = some w := by
  cases hf : s.find? k with
  | none =>
    refine ⟨{ init with creationTimestampIsZero := false }, ?_⟩
    rw [createOrUpdate_id_of_missing s k init hf]
    exact Store.find?_insert_self s k _
  | some e =>
    refine ⟨e, ?_⟩
    rw [createOrUpdate_id_of_found s k init e hf]
    exact hf

theorem createOrUpdate_noop_of_fixed (s : Store) (k : Key) (init w : ComponentDescriptor)
    (m : ComponentDescriptor → ComponentDescriptor) (h : s.find? k = some w)
    (hw : m w = w) : createOrUpdate s k init m = (s, .unchanged) := by
  unfold createOrUpdate
  rw [h]
  simp [hw]

/-! ### rootMutate lemmas -/

theorem rootMutate_spec_eq (n : String) (sp : ComponentDescriptorSpec)
    (d : ComponentDescriptor) : (rootMutate n sp d).spec = sp := by
  obtain ⟨s0, o0, t0⟩ := d
  cases t0 <;> simp [rootMutate]

theorem rootMutate_idem (n : String) (sp : ComponentDescriptorSpec)
    (d : ComponentDescriptor) : rootMutate n sp (rootMutate n sp d) = rootMutate n sp d := by
  obtain ⟨s0, o0, t0⟩ := d
  cases t0 <;> simp [rootMutate, setOwnerReference_idem]

theorem rootMutate_stable_stored (n : String) (sp : ComponentDescriptorSpec)
    (d : ComponentDescriptor) :
    rootMutate n sp { rootMutate n sp d with creationTimestampIsZero := false }
      = { rootMutate n sp d with creationTimestampIsZero := false } := by
  obtain ⟨s0, o0, t0⟩ := d
  cases t0 <;> simp [rootMutate]

/-! ### StoreSub lemmas -/

theorem StoreSub.rfl (s : Store) : StoreSub s s := fun _ _ h => h

theorem StoreSub.trans {a b c : Store} (h1 : StoreSub a b) (h2 : StoreSub b c) :
    StoreSub a c := fun k v h => h2 k v (h1 k v h)

theorem createOrUpdate_stable (s : Store) (k : Key) (init : ComponentDescriptor)
    (m : ComponentDescriptor → ComponentDescriptor)
    (h1 : ∀ x, m (m x) = m x)
    (h2 : ∀ x, m { m x with creationTimestampIsZero := false }
                 = { m x with creationTimestampIsZero := false }) :
    ∃ w, ((createOrUpdate s k init m).1).find? k = some w ∧ m w = w := by
  unfold createOrUpdate
  cases hf : s.find? k with
  | none =>
    exact ⟨{ m init with creationTimestampIsZero := false },
           Store.find?_insert_self s k _, h2 init⟩
  | some e =>
    by_cases he : m e = e
    · exact ⟨e, by simp [he, hf], he⟩
    · refine ⟨m e, ?_, h1 e⟩
      simp [he, Store.find?_insert_self]

/-! ### Expansion preserves existing records

The child upsert runs `CreateOrUpdate` with an empty mutate function, so an
existing record is read back and compared equal — the walk never modifies a
record that is already in the store. -/

theorem parseRefsGo_preserve (env : Env) (parent : ComponentVersion)
    (recurse : List OcmReference → Store → Store × PRes)
    (hrec : ∀ refs s k v, s.find? k = some v → ((recurse refs s).1).find? k = some v) :
    ∀ refs s k v, s.find? k = some v →
      ((parseRefsGo env parent recurse refs s).1).find? k = some v := by
  intro refs
  induction refs with
  | nil => intro s k v h; exact h
  | cons ref rest ih =>
    intro s k v h
    simp only [parseRefsGo]
    cases henv : env ref.componentName ref.version with
    | none => exact h
    | some child =>
      by_cases hco : child.convertsOk = false
      · simp only [if_pos hco]
        exact h
      · simp only [if_neg hco]
        set key : Key :=
          ⟨parent.ns, constructComponentName ref.componentName ref.version ref.extraIdentity⟩ with hkey
        set init : ComponentDescriptor :=
          ⟨⟨child.payload, ref.version⟩, setOwnerReference ⟨parent.name⟩ [], true⟩ with hinit
        set s1 := (createOrUpdate s key init id).1 with hs1def
        have h1 : s1.find? k = some v := createOrUpdate_id_preserve s key init k v h
        by_cases hemp : child.references.isEmpty = true
        · simp only [if_pos hemp]
          cases hrest : parseRefsGo env parent recurse rest s1 with
          | mk store3 pres =>
            have h3 : store3.find? k = some v := by
              have hx := ih s1 k v h1
              rw [hrest] at hx
              exact hx
            cases pres <;> simpa [hrest] using h3
        · simp only [if_neg hemp]
          cases hsub : recurse child.references s1 with
          | mk sA pA =>
            have hA : sA.find? k = some v := by
              have hx := hrec child.references s1 k v h1
              rw [hsub] at hx
              exact hx
            cases pA with
            | ok out =>
              cases hrest : parseRefsGo env parent recurse rest sA with
              | mk store3 pres =>
                have h3 : store3.find? k = some v := by
                  have hx := ih sA k v hA
                  rw [hrest] at hx
                  exact hx
                cases pres <;> simpa [hrest] using h3
            | err e => simpa using hA
            | diverge => simpa using hA

theorem parseReferences_preserve (env : Env) (parent : ComponentVersion) :
    ∀ fuel refs s k v, s.find? k = some v →
      ((parseReferences env parent fuel refs s).1).find? k = some v := by
  intro fuel
  induction fuel with
  | zero => exact parseRefsGo_preserve env parent _ (fun _ _ _ _ h => h)
  | succ fuel ih => exact parseRefsGo_preserve env parent _ ih

/-! ### The expansion depends on the parent object only through its
namespace and name (used to re-run it on a root whose status changed). -/

theorem parseRefsGo_congr (env : Env) (p q : ComponentVersion)
    (recurse recurse' : List OcmReference → Store → Store × PRes)
    (hns : p.ns = q.ns) (hname : p.name = q.name)
    (hrec : ∀ refs s, recurse refs s = recurse' refs s) :
    ∀ refs s, parseRefsGo env p recurse refs s = parseRefsGo env q recurse' refs s := by
  intro refs
  induction refs with
  | nil => intro s; rfl
  | cons ref rest ih =>
    intro s
    simp only [parseRefsGo]
    cases henv : env ref.componentName ref.version with
    | none => rfl
    | some child =>
      by_cases hco : child.convertsOk = false
      · simp only [if_pos hco]
      · simp only [if_neg hco, hns, hname, hrec, ih]

theorem parseReferences_congr (env : Env) (p q : ComponentVersion)
    (hns : p.ns = q.ns) (hname : p.name = q.name) :
    ∀ fuel refs s, parseReferences env p fuel refs s = parseReferences env q fuel refs s := by
  intro fuel
  induction fuel with
  | zero => exact parseRefsGo_congr env p q _ _ hns hname (fun _ _ => Eq.refl _)
  | succ fuel ih => exact parseRefsGo_congr env p q _ _ hns hname ih

/-! ### Re-running the expansion over a store that already contains its
output is a no-op: the store is unchanged and the result is identical. -/

theorem parseRefsGo_stable (env : Env) (parent : ComponentVersion)
    (recurse : List OcmReference → Store → Store × PRes)
    (hrecP : ∀ refs s k v, s.find? k = some v → ((recurse refs s).1).find? k = some v)
    (hrecS : ∀ refs s t, StoreSub ((recurse refs s).1) t →
        recurse refs t = (t, (recurse refs s).2)) :
    ∀ refs s t, StoreSub ((parseRefsGo env parent recurse refs s).1) t →
      parseRefsGo env parent recurse refs t = (t, (parseRefsGo env parent recurse refs s).2) := by
  intro refs
  induction refs with
  | nil => intro s t _; rfl
  | cons ref rest ih =>
    intro s t hsub
    simp only [parseRefsGo] at hsub ⊢
    cases henv : env ref.componentName ref.version with
    | none => rfl
    | some child =>
      by_cases hco : child.convertsOk = false
      · simp only [if_pos hco]
      · rw [henv] at hsub
        simp only [if_neg hco] at hsub ⊢
        set key : Key :=
          ⟨parent.ns, constructComponentName ref.componentName ref.version ref.extraIdentity⟩ with hkey
        set init : ComponentDescriptor :=
          ⟨⟨child.payload, ref.version⟩, setOwnerReference ⟨parent.name⟩ [], true⟩ with hinit
        set s1 := (createOrUpdate s key init id).1 with hs1def
        obtain ⟨w, hw⟩ := createOrUpdate_id_find_self s key init
        rw [← hs1def] at hw
        by_cases hemp : child.references.isEmpty = true
        · simp only [if_pos hemp] at hsub ⊢
          cases hrest : parseRefsGo env parent recurse rest s1 with
          | mk sB presB =>
            have hwB : sB.find? key = some w := by
              have hx := parseRefsGo_preserve env parent recurse hrecP rest s1 key w hw
              rw [hrest] at hx
              exact hx
            cases presB <;>
              (have hsubB : StoreSub sB t := by simpa [hrest] using hsub
               have hwt : t.find? key = some w := hsubB key w hwB
               have hres := ih s1 t (by rw [hrest]; exact hsubB)
               rw [hrest] at hres
               simp [createOrUpdate_id_of_found t key init w hwt, hrest, hres])
        · simp only [if_neg hemp] at hsub ⊢
          cases hsubc : recurse child.references s1 with
          | mk sA pA =>
            have hwA : sA.find? key = some w := by
              have hx := hrecP child.references s1 key w hw
              rw [hsubc] at hx
              exact hx
            cases pA with
            | ok out =>
              cases hrest : parseRefsGo env parent recurse rest sA with
              | mk sB presB =>
                have hwB : sB.find? key = some w := by
                  have hx := parseRefsGo_preserve env parent recurse hrecP rest sA key w hwA
                  rw [hrest] at hx
                  exact hx
                cases presB <;>
                  (have hsubB : StoreSub sB t := by simpa [hsubc, hrest] using hsub
                   have hwt : t.find? key = some w := hsubB key w hwB
                   have hsubA : StoreSub sA t := by
                     refine StoreSub.trans ?_ hsubB
                     intro k' v' hv'
                     have hx := parseRefsGo_preserve env parent recurse hrecP rest sA k' v' hv'
                     rw [hrest] at hx
                     exact hx
                   have hsubcT := hrecS child.references s1 t (by rw [hsubc]; exact hsubA)
                   rw [hsubc] at hsubcT
                   have hres := ih sA t (by rw [hrest]; exact hsubB)
                   rw [hrest] at hres
                   simp [createOrUpdate_id_of_found t key init w hwt, hsubc, hrest, hres, hsubcT])
            | err e =>
              have hsubA : StoreSub sA t := by
                simpa [hsubc] using hsub
              have hwt : t.find? key = some w := hsubA key w hwA
              have hsubcT := hrecS child.references s1 t (by rw [hsubc]; exact hsubA)
              rw [hsubc] at hsubcT
              simp only [createOrUpdate_id_of_found t key init w hwt]
              simp [hsubc, hsubcT]
            | diverge =>
              have hsubA : StoreSub sA t := by
                simpa [hsubc] using hsub
              have hwt : t.find? key = some w := hsubA key w hwA
              have hsubcT := hrecS child.references s1 t (by rw [hsubc]; exact hsubA)
              rw [hsubc] at hsubcT
              simp only [createOrUpdate_id_of_found t key init w hwt]
              simp [hsubc, hsubcT]

theorem parseReferences_stable (env : Env) (parent : ComponentVersion) :
    ∀ fuel refs s t, StoreSub ((parseReferences env parent fuel refs s).1) t →
      parseReferences env parent fuel refs t = (t, (parseReferences env parent fuel refs s).2) := by
  intro fuel
  induction fuel with
  | zero => exact parseRefsGo_stable env parent _ (fun _ _ _ _ h => h) (fun _ _ _ _ => rfl)
  | succ fuel ih =>
    exact parseRefsGo_stable env parent _ (parseReferences_preserve env parent fuel) ih

/-! ### Records created by the expansion are owned by the function's
`parent` argument — the top-level root object threaded unchanged through
every recursive call. -/

theorem parseRefsGo_created_owner (env : Env) (parent : ComponentVersion)
    (recurse : List OcmReference → Store → Store × PRes)
    (hrecP : ∀ refs s k v, s.find? k = some v → ((recurse refs s).1).find? k = some v)
    (hrecO : ∀ refs s k v, s.find? k = none → ((recurse refs s).1).find? k = some v →
        v.ownerReferences = [⟨parent.name⟩]) :
    ∀ refs s k v, s.find? k = none →
      ((parseRefsGo env parent recurse refs s).1).find? k = some v →
      v.ownerReferences = [⟨parent.name⟩] := by
  intro refs
  induction refs with
  | nil =>
    intro s k v h0 hfin
    simp [parseRefsGo, h0] at hfin
  | cons ref rest ih =>
    intro s k v h0 hfin
    simp only [parseRefsGo] at hfin
    cases henv : env ref.componentName ref.version with
    | none =>
      rw [henv] at hfin
      simp [h0] at hfin
    | some child =>
      rw [henv] at hfin
      by_cases hco : child.convertsOk = false
      · simp [hco, h0] at hfin
      · simp only [if_neg hco] at hfin
        set key : Key :=
          ⟨parent.ns, constructComponentName ref.componentName ref.version ref.extraIdentity⟩ with hkey
        set init : ComponentDescriptor :=
          ⟨⟨child.payload, ref.version⟩, setOwnerReference ⟨parent.name⟩ [], true⟩ with hinit
        set s1 := (createOrUpdate s key init id).1 with hs1def
        have hs1case : s1.find? k = none ∨
            s1.find? k = some { init with creationTimestampIsZero := false } := by
          cases hk1 : s1.find? k with
          | none => exact Or.inl rfl
          | some w =>
            right
            have hkeq : k = key := by
              by_contra hne
              rw [hs1def, createOrUpdate_preserve_ne s key init id k hne, h0] at hk1
              cases hk1
            rw [hkeq] at h0 hk1
            rw [hs1def, createOrUpdate_id_of_missing s key init h0,
                Store.find?_insert_self] at hk1
            exact hk1.symm
        have howners : ({ init with creationTimestampIsZero := false } :
            ComponentDescriptor).ownerReferences = [⟨parent.name⟩] := by
          simp [hinit, setOwnerReference_nil]
        by_cases hemp : child.references.isEmpty = true
        · simp only [if_pos hemp] at hfin
          cases hrest : parseRefsGo env parent recurse rest s1 with
          | mk sB presB =>
            cases presB <;>
              (simp [hrest] at hfin
               rcases hs1case with hk1 | hk1
               · exact ih s1 k v hk1 (by rw [hrest]; simpa using hfin)
               · have hx := parseRefsGo_preserve env parent recurse hrecP rest s1 k _ hk1
                 rw [hrest] at hx
                 simp only [hx] at hfin
                 obtain rfl : v = { init with creationTimestampIsZero := false } := by
                   simpa using hfin.symm
                 exact howners)
        · simp only [if_neg hemp] at hfin
          cases hsubc : recurse child.references s1 with
          | mk sA pA =>
            rw [hsubc] at hfin
            cases pA with
            | ok out =>
              cases hrest : parseRefsGo env parent recurse rest sA with
              | mk sB presB =>
                cases presB <;>
                  (simp [hrest] at hfin
                   rcases hs1case with hk1 | hk1
                   · cases hA : sA.find? k with
                     | none => exact ih sA k v hA (by rw [hrest]; simpa using hfin)
                     | some vA =>
                       have hvA : vA.ownerReferences = [⟨parent.name⟩] := by
                         refine hrecO child.references s1 k vA hk1 ?_
                         rw [hsubc]
                         exact hA
                       have hx := parseRefsGo_preserve env parent recurse hrecP rest sA k vA hA
                       rw [hrest] at hx
                       simp only [hx] at hfin
                       obtain rfl : v = vA := by simpa using hfin.symm
                       exact hvA
                   · have hxA : sA.find? k = some { init with creationTimestampIsZero := false } := by
                       have hx := hrecP child.references s1 k _ hk1
                       rw [hsubc] at hx
                       exact hx
                     have hx := parseRefsGo_preserve env parent recurse hrecP rest sA k _ hxA
                     rw [hrest] at hx
                     simp only [hx] at hfin
                     obtain rfl : v = { init with creationTimestampIsZero := false } := by
                       simpa using hfin.symm
                     exact howners)
            | err e =>
              simp at hfin
              rcases hs1case with hk1 | hk1
              · refine hrecO child.references s1 k v hk1 ?_
                rw [hsubc]
                exact hfin
              · have hxA : sA.find? k = some { init with creationTimestampIsZero := false } := by
                  have hx := hrecP child.references s1 k _ hk1
                  rw [hsubc] at hx
                  exact hx
                rw [hxA] at hfin
                obtain rfl : v = { init with creationTimestampIsZero := false } := by
                  simpa using hfin.symm
                exact howners
            | diverge =>
              simp at hfin
              rcases hs1case with hk1 | hk1
              · refine hrecO child.references s1 k v hk1 ?_
                rw [hsubc]
                exact hfin
              · have hxA : sA.find? k = some { init with creationTimestampIsZero := false } := by
                  have hx := hrecP child.references s1 k _ hk1
                  rw [hsubc] at hx
                  exact hx
                rw [hxA] at hfin
                obtain rfl : v = { init with creationTimestampIsZero := false } := by
                  simpa using hfin.symm
                exact howners

theorem parseReferences_created_owner (env : Env) (parent : ComponentVersion) :
    ∀ fuel refs s k v, s.find? k = none →
      ((parseReferences env parent fuel refs s).1).find? k = some v →
      v.ownerReferences = [⟨parent.name⟩] := by
  intro fuel
  induction fuel with
  | zero =>
    refine parseRefsGo_created_owner env parent _ (fun _ _ _ _ h => h) ?_
    intro refs s k v h0 hf
    simp [h0] at hf
  | succ fuel ih =>
    exact parseRefsGo_created_owner env parent _ (parseReferences_preserve env parent fuel) ih

/-! ### A successful expansion mirrors the declared reference lists,
elementwise and in order, at every level of the recursion. -/

theorem parseRefsGo_mirrors (env : Env) (parent : ComponentVersion)
    (recurse : List OcmReference → Store → Store × PRes)
    (hrec : ∀ refs s out, (recurse refs s).2 = .ok out → MirrorsList env out refs) :
    ∀ refs s out, (parseRefsGo env parent recurse refs s).2 = .ok out →
      MirrorsList env out refs := by
  intro refs
  induction refs with
  | nil =>
    intro s out h
    obtain rfl : ([] : List Reference) = out := by simpa [parseRefsGo] using h
    exact .nil
  | cons ref rest ih =>
    intro s out hfin
    simp only [parseRefsGo] at hfin
    cases henv : env ref.componentName ref.version with
    | none =>
      rw [henv] at hfin
      simp at hfin
    | some child =>
      rw [henv] at hfin
      by_cases hco : child.convertsOk = false
      · simp [hco] at hfin
      · simp only [if_neg hco] at hfin
        set key : Key :=
          ⟨parent.ns, constructComponentName ref.componentName ref.version ref.extraIdentity⟩ with hkey
        set init : ComponentDescriptor :=
          ⟨⟨child.payload, ref.version⟩, setOwnerReference ⟨parent.name⟩ [], true⟩ with hinit
        set s1 := (createOrUpdate s key init id).1 with hs1def
        by_cases hemp : child.references.isEmpty = true
        · simp only [if_pos hemp] at hfin
          cases hrest : parseRefsGo env parent recurse rest s1 with
          | mk sB presB =>
            cases presB with
            | ok outRest =>
              simp [hrest] at hfin
              obtain rfl : Reference.mk ref.name ref.version key.name key.ns
                  ref.extraIdentity [] :: outRest = out := hfin
              refine MirrorsList.cons ?_ (ih s1 outRest (by rw [hrest]))
              refine Mirrors.mk _ _ _ _ _ _ ref child henv rfl rfl ?_
              rw [List.isEmpty_iff.mp hemp]
              exact .nil
            | err e => simp [hrest] at hfin
            | diverge => simp [hrest] at hfin
        · simp only [if_neg hemp] at hfin
          cases hsubc : recurse child.references s1 with
          | mk sA pA =>
            rw [hsubc] at hfin
            cases pA with
            | ok outc =>
              cases hrest : parseRefsGo env parent recurse rest sA with
              | mk sB presB =>
                cases presB with
                | ok outRest =>
                  simp [hrest] at hfin
                  obtain rfl : Reference.mk ref.name ref.version key.name key.ns
                      ref.extraIdentity outc :: outRest = out := hfin
                  refine MirrorsList.cons ?_ (ih sA outRest (by rw [hrest]))
                  refine Mirrors.mk _ _ _ _ _ _ ref child henv rfl rfl ?_
                  exact hrec child.references s1 outc (by rw [hsubc])
                | err e => simp [hrest] at hfin
                | diverge => simp [hrest] at hfin
            | err e => simp at hfin
            | diverge => simp at hfin

theorem parseReferences_mirrors (env : Env) (parent : ComponentVersion) :
    ∀ fuel refs s out, (parseReferences env parent fuel refs s).2 = .ok out →
      MirrorsList env out refs := by
  intro fuel
  induction fuel with
  | zero =>
    refine parseRefsGo_mirrors env parent _ ?_
    intro refs s out h
    simp at h
  | succ fuel ih => exact parseRefsGo_mirrors env parent _ ih

/-! ### Termination and divergence of the unbounded recursion. When the
fetched reference graph admits a strictly decreasing rank (every child of a
fetchable descriptor ranks below it — the finite-acyclic case), a fuel
bounding the ranks is never exhausted; on the self-referencing fixture the
walk exhausts every fuel. -/

theorem parseRefsGo_no_diverge (env : Env) (parent : ComponentVersion)
    (recurse : List OcmReference → Store → Store × PRes)
    (rank : String → String → Nat) (n : Nat)
    (henv : ∀ nm vr d, env nm vr = some d →
        ∀ r ∈ d.references, rank r.componentName r.version < rank nm vr)
    (hrec : ∀ refs s, (∀ r ∈ refs, rank r.componentName r.version < n) →
        ((recurse refs s).2) ≠ .diverge) :
    ∀ refs s, (∀ r ∈ refs, rank r.componentName r.version < n + 1) →
      (parseRefsGo env parent recurse refs s).2 ≠ .diverge := by
  intro refs
  induction refs with
  | nil => intro s _ h; cases h
  | cons ref rest ih =>
    intro s hb h
    simp only [parseRefsGo] at h
    cases hc : env ref.componentName ref.version with
    | none => rw [hc] at h; cases h
    | some child =>
      rw [hc] at h
      by_cases hco : child.convertsOk = false
      · simp [hco] at h
      · simp only [if_neg hco] at h
        set s1 := (createOrUpdate s
          ⟨parent.ns, constructComponentName ref.componentName ref.version ref.extraIdentity⟩
          ⟨⟨child.payload, ref.version⟩, setOwnerReference ⟨parent.name⟩ [], true⟩ id).1 with hs1def
        by_cases hemp : child.references.isEmpty = true
        · simp only [if_pos hemp] at h
          cases hrest : parseRefsGo env parent recurse rest s1 with
          | mk sB presB =>
            have hr : presB ≠ .diverge := by
              have hx := ih s1 (fun r hr => hb r (List.mem_cons_of_mem ref hr))
              rw [hrest] at hx
              exact hx
            cases presB with
            | ok outRest => simp [hrest] at h
            | err e => simp [hrest] at h
            | diverge => exact hr rfl
        · simp only [if_neg hemp] at h
          cases hsubc : recurse child.references s1 with
          | mk sA pA =>
            have hsubok : pA ≠ .diverge := by
              have hchild : ∀ r ∈ child.references, rank r.componentName r.version < n := by
                intro r hr
                have h1 := henv ref.componentName ref.version child hc r hr
                have h2 := hb ref (List.mem_cons_self ref rest)
                omega
              have hx := hrec child.references s1 hchild
              rw [hsubc] at hx
              exact hx
            rw [hsubc] at h
            cases pA with
            | ok outc =>
              cases hrest : parseRefsGo env parent recurse rest sA with
              | mk sB presB =>
                have hr : presB ≠ .diverge := by
                  have hx := ih sA (fun r hr => hb r (List.mem_cons_of_mem ref hr))
                  rw [hrest] at hx
                  exact hx
                cases presB with
                | ok outRest => simp [hrest] at h
                | err e => simp [hrest] at h
                | diverge => exact hr rfl
            | err e => simp at h
            | diverge => exact hsubok rfl

theorem parseReferences_no_diverge (env : Env) (parent : ComponentVersion)
    (rank : String → String → Nat)
    (henv : ∀ nm vr d, env nm vr = some d →
        ∀ r ∈ d.references, rank r.componentName r.version < rank nm vr) :
    ∀ fuel refs s, (∀ r ∈ refs, rank r.componentName r.version < fuel) →
      (parseReferences env parent fuel refs s).2 ≠ .diverge := by
  intro fuel
  induction fuel with
  | zero =>
    intro refs s hb h
    cases refs with
    | nil => cases h
    | cons r rest => exact absurd (hb r (List.mem_cons_self r rest)) (by omega)
  | succ fuel ih => exact parseRefsGo_no_diverge env parent _ rank fuel henv ih

theorem cycleGo_diverges (recurse : List OcmReference → Store → Store × PRes)
    (hrec : ∀ t, (recurse [cycleRef] t).2 = .diverge) :
    ∀ s, (parseRefsGo cycleEnv plainRoot recurse [cycleRef] s).2 = .diverge := by
  intro s
  have hrec' : ∀ t, (recurse [⟨"self", "v", "comp/cyc", []⟩] t).2 = PRes.diverge := by
    simpa [cycleRef] using hrec
  simp only [parseRefsGo, cycleEnv, cycleRef, cycleDescriptor]
  rw [if_neg (by decide), if_neg (by decide)]
  set X := (createOrUpdate s ⟨plainRoot.ns, constructComponentName "comp/cyc" "v" []⟩
      ⟨⟨"P", "v"⟩, setOwnerReference ⟨plainRoot.name⟩ [], true⟩ id).1 with hX
  have h := hrec' X
  cases hs : recurse [⟨"self", "v", "comp/cyc", []⟩] X with
  | mk sA pA =>
    rw [hs] at h
    cases pA <;> simp_all

theorem cycle_expansion_diverges :
    ∀ fuel s, (parseReferences cycleEnv plainRoot fuel [cycleRef] s).2 = .diverge := by
  intro fuel
  induction fuel with
  | zero => exact cycleGo_diverges _ (fun t => rfl)
  | succ fuel ih => exact cycleGo_diverges _ (fun t => ih t)

/-! ### Root-record upsert facts -/

theorem createOrUpdate_rootMutate_find (s : Store) (k : Key) (init : ComponentDescriptor)
    (n : String) (sp : ComponentDescriptorSpec) :
    ∃ r, ((createOrUpdate s k init (rootMutate n sp)).1).find? k = some r ∧ r.spec = sp := by
  unfold createOrUpdate
  cases hf : s.find? k with
  | none =>
    refine ⟨{ rootMutate n sp init with creationTimestampIsZero := false },
            Store.find?_insert_self s k _, ?_⟩
    exact rootMutate_spec_eq n sp init
  | some e =>
    by_cases he : rootMutate n sp e = e
    · refine ⟨e, by simp [he, hf], ?_⟩
      have hx := rootMutate_spec_eq n sp e
      rw [he] at hx
      exact hx
    · exact ⟨rootMutate n sp e, by simp [he, Store.find?_insert_self],
             rootMutate_spec_eq n sp e⟩

theorem createOrUpdate_length_of_found (s : Store) (k : Key)
    (init old : ComponentDescriptor) (m : ComponentDescriptor → ComponentDescriptor)
    (h : s.find? k = some old) :
    ((createOrUpdate s k init m).1).entries.length = s.entries.length := by
  unfold createOrUpdate
  rw [h]
  by_cases he : m old = old
  · simp [he]
  · simp only [he, if_neg, not_false_iff]
    exact insertEntry_length_of_found s.entries k (m old) old h

/-! ### Claim theorems -/

/-- C3: Idempotence of reconcile: re-running `reconcile` on the object and
store a first run produced returns the identical store (zero net store
mutations), the identical object (identical status output), and the
identical result and outcome. -/
theorem reconcile_idempotent (env : Env) (cv : ComponentVersion) (fuel : Nat) (store : Store) :
    reconcile env (reconcile env cv fuel store).2.1 fuel (reconcile env cv fuel store).1
      = reconcile env cv fuel store := by
  cases henv : env cv.spec.component cv.spec.version with
  | none => simp [reconcile, henv]
  | some cd =>
    by_cases hco : cd.convertsOk = false
    · simp [reconcile, henv, hco]
    · set key : Key := ⟨cv.ns, constructComponentName cd.name cd.version []⟩ with hkey
      set initR : ComponentDescriptor := ⟨⟨"", ""⟩, [], true⟩ with hinitR
      set m := rootMutate cv.name ⟨cd.payload, cd.version⟩ with hm
      set s1 := (createOrUpdate store key initR m).1 with hs1
      obtain ⟨w, hw, hfix⟩ := createOrUpdate_stable store key initR m
        (rootMutate_idem cv.name ⟨cd.payload, cd.version⟩)
        (rootMutate_stable_stored cv.name ⟨cd.payload, cd.version⟩)
      rw [← hs1] at hw
      by_cases hexp : cv.spec.expand = false
      · have hrun1 : reconcile env cv fuel store = (s1, cv, ⟨cv.GetRequeueAfter⟩, .ok) := by
          simp [reconcile, henv, hco, hexp]
        have hcu2 : createOrUpdate s1 key initR m = (s1, .unchanged) :=
          createOrUpdate_noop_of_fixed s1 key initR w m hw hfix
        rw [hrun1]
        simp [reconcile, henv, hco, hexp, hcu2]
      · cases hp : parseReferences env cv fuel cd.references s1 with
        | mk s2 pres =>
          have hw2 : s2.find? key = some w := by
            have hx := parseReferences_preserve env cv fuel cd.references s1 key w hw
            rw [hp] at hx
            exact hx
          have hcu2 : createOrUpdate s2 key initR m = (s2, .unchanged) :=
            createOrUpdate_noop_of_fixed s2 key initR w m hw2 hfix
          have hstab := parseReferences_stable env cv fuel cd.references s1 s2
            (by rw [hp]; exact fun _ _ h => h)
          rw [hp] at hstab
          cases pres with
          | err e =>
            have hrun1 : reconcile env cv fuel store
                = (s2, cv, ⟨cv.GetRequeueAfter⟩, .err (.getReferences e)) := by
              simp [reconcile, henv, hco, hexp, hp]
            rw [hrun1]
            simp [reconcile, henv, hco, hexp, hcu2, hstab]
          | diverge =>
            have hrun1 : reconcile env cv fuel store = (s2, cv, ⟨0⟩, .diverge) := by
              simp [reconcile, henv, hco, hexp, hp]
            rw [hrun1]
            simp [reconcile, henv, hco, hexp, hcu2, hstab]
          | ok out =>
            have hrun1 : reconcile env cv fuel store
                = (s2, ⟨cv.name, cv.ns, cv.spec,
                    ⟨Reference.mk cd.name cd.version key.name key.ns [] out,
                     cv.status.verified⟩⟩, ⟨cv.GetRequeueAfter⟩, .ok) := by
              simp [reconcile, henv, hco, hexp, hp]
            have hcongr := parseReferences_congr env
              (⟨cv.name, cv.ns, cv.spec,
                ⟨Reference.mk cd.name cd.version key.name key.ns [] out,
                 cv.status.verified⟩⟩ : ComponentVersion) cv rfl rfl fuel cd.references s2
            rw [hrun1]
            simp [reconcile, henv, hco, hexp, hcu2, hstab, hcongr,
              ComponentVersion.GetRequeueAfter]

/-- C1: Fail-closed verification. When the verifier returns an error or a
mismatch, `Reconcile` returns with the store exactly as it was (no
ComponentDescriptor record created or updated), the object untouched, a
retry scheduled after the configured interval, and the corresponding
distinct error. -/
theorem verification_gate_fail_closed (env : Env) (cv : ComponentVersion) (fuel : Nat)
    (store : Store) :
    Reconcile env .errored (.found cv) fuel store
      = (store, some cv, ⟨cv.GetRequeueAfter⟩, .err .verifyError)
    ∧ Reconcile env .mismatch (.found cv) fuel store
      = (store, some cv, ⟨cv.GetRequeueAfter⟩, .err .verifyMismatch) :=
  ⟨rfl, rfl⟩

/-- C2 evaluated on the failing input: two extra-identity maps that differ
in content produce the identical computed record key, because the
hashstructure hash of the all-unexported naming-scheme struct is a constant
— the claim's required distinctness fails on the code. -/
theorem constructComponentName_collapses_identities :
    [("color", "red")] ≠ ([("color", "blue")] : Identity)
    ∧ constructComponentName "app" "v1" [("color", "red")]
      = constructComponentName "app" "v1" [("color", "blue")] :=
  ⟨by decide, rfl⟩

/-- C10: A not-found root object ends `Reconcile` successfully with the
zero result (no error, no requeue) and an unchanged store; the output is
the same for every fetcher and every verifier outcome, so no fetch and no
verification can influence (or be observed in) the reconcile. -/
theorem notfound_returns_empty_success (env : Env) (verify : VerifyResult) (fuel : Nat)
    (store : Store) :
    Reconcile env verify .notFound fuel store = (store, none, ⟨0⟩, .ok) :=
  rfl

/-- C6 counterexample: after a verification mismatch and after a
verification-infrastructure error the root object is returned with its
status exactly as it was — the two failure kinds leave identical statuses
(there is no conditions field at all in the status schema), so they are not
observably different on status; only the returned errors differ. -/
theorem verify_failure_status_counterexample :
    (Reconcile abcEnv .mismatch (.found verifyRoot) 1 ⟨[]⟩).2.1 = some verifyRoot
    ∧ (Reconcile abcEnv .errored (.found verifyRoot) 1 ⟨[]⟩).2.1 = some verifyRoot
    ∧ (Reconcile abcEnv .mismatch (.found verifyRoot) 1 ⟨[]⟩).2.2.2
      ≠ (Reconcile abcEnv .errored (.found verifyRoot) 1 ⟨[]⟩).2.2.2 :=
  ⟨rfl, rfl, by decide⟩

/-- C6 amended: a mismatch (`ok == false`, `err == nil`) and an
infrastructure error (`err != nil`) abort with two distinct returned
errors, but neither is recorded on the root's status: the object and the
store are returned untouched on both paths. -/
theorem verify_failures_distinct_errors_status_untouched (env : Env)
    (cv : ComponentVersion) (fuel : Nat) (store : Store) :
    Reconcile env .mismatch (.found cv) fuel store
      = (store, some cv, ⟨cv.GetRequeueAfter⟩, .err .verifyMismatch)
    ∧ Reconcile env .errored (.found cv) fuel store
      = (store, some cv, ⟨cv.GetRequeueAfter⟩, .err .verifyError)
    ∧ RErr.verifyMismatch ≠ RErr.verifyError :=
  ⟨rfl, rfl, by decide⟩

/-- C7: Order preservation. Whenever the expansion succeeds, the produced
Reference list mirrors the declared reference list — elementwise, in
declaration order, and recursively at every level (each node's nested list
mirrors the child list declared by the descriptor the fetcher returns). -/
theorem expansion_preserves_declared_order (env : Env) (parent : ComponentVersion)
    (fuel : Nat) (refs : List OcmReference) (store : Store) (out : List Reference)
    (h : (parseReferences env parent fuel refs store).2 = .ok out) :
    MirrorsList env out refs :=
  parseReferences_mirrors env parent fuel refs store out h

/-- C7 witness: on the concrete three-child root declared [A, B, C] the
expansion returns exactly that order and the mirror relation holds. -/
theorem expansion_preserves_declared_order_witness :
    (parseReferences abcEnv abcRoot 5 abcRootDescriptor.references ⟨[]⟩).2
      = .ok [Reference.mk "A" "v1" "comp-a-v1-14695981039346656037" "default" [] [],
             Reference.mk "B" "v1" "comp-b-v1-14695981039346656037" "default" [] [],
             Reference.mk "C" "v1" "comp-c-v1-14695981039346656037" "default" [("pos", "1")] []]
    ∧ MirrorsList abcEnv
        [Reference.mk "A" "v1" "comp-a-v1-14695981039346656037" "default" [] [],
         Reference.mk "B" "v1" "comp-b-v1-14695981039346656037" "default" [] [],
         Reference.mk "C" "v1" "comp-c-v1-14695981039346656037" "default" [("pos", "1")] []]
        abcRootDescriptor.references :=
  ⟨rfl, expansion_preserves_declared_order abcEnv abcRoot 5 abcRootDescriptor.references ⟨[]⟩ _ rfl⟩

/-- C8: Flat ownership. Every record the expansion creates — at any depth
of the recursion — carries exactly one owner reference, to the top-level
root object (`parent` is threaded unchanged through every recursive call,
so a grandchild is never owned by its immediate graph parent); and a record
that already existed before the walk is returned byte-identical, so an
existing record is never re-parented. -/
theorem expansion_flat_ownership :
    (∀ (env : Env) (parent : ComponentVersion) (fuel : Nat) (refs : List OcmReference)
       (store : Store) (k : Key) (v : ComponentDescriptor),
       store.find? k = none →
       ((parseReferences env parent fuel refs store).1).find? k = some v →
       v.ownerReferences = [⟨parent.name⟩])
    ∧ (∀ (env : Env) (parent : ComponentVersion) (fuel : Nat) (refs : List OcmReference)
       (store : Store) (k : Key) (v : ComponentDescriptor),
       store.find? k = some v →
       ((parseReferences env parent fuel refs store).1).find? k = some v) :=
  ⟨fun env parent => parseReferences_created_owner env parent,
   fun env parent => parseReferences_preserve env parent⟩

/-- C8 witness: in the two-level chain root → A → B, the created record for
B (whose immediate graph parent is A) is owned by the root object, and a
pre-existing record with a different owner is left untouched. -/
theorem expansion_flat_ownership_witness :
    (⟨[]⟩ : Store).find? bKey = none
    ∧ ((parseReferences chainEnv plainRoot 5 [chainRefA] ⟨[]⟩).1).find? bKey
        = some ⟨⟨"PB", "v1"⟩, [⟨"root-obj"⟩], false⟩
    ∧ (⟨⟨"PB", "v1"⟩, [⟨"root-obj"⟩], false⟩ : ComponentDescriptor).ownerReferences
        = [⟨plainRoot.name⟩]
    ∧ ((parseReferences chainEnv plainRoot 5 [chainRefA] ⟨[(bKey, staleRecord)]⟩).1).find? bKey
        = some staleRecord :=
  ⟨rfl, rfl,
   expansion_flat_ownership.1 chainEnv plainRoot 5 [chainRefA] ⟨[]⟩ bKey _ rfl rfl,
   expansion_flat_ownership.2 chainEnv plainRoot 5 [chainRefA] ⟨[(bKey, staleRecord)]⟩ bKey
     staleRecord rfl⟩

/-- C9: Termination and unbounded recursion. If the fetched reference graph
admits a strictly decreasing rank (the finite acyclic case), then any fuel
bounding the ranks of the initial references is never exhausted — the walk
terminates without the `diverge` outcome; on the self-referencing cyclic
fixture the walk exhausts every fuel, i.e. the Go recursion, which has no
depth bound and no cycle detection, never returns. -/
theorem expansion_unbounded_recursion :
    (∀ (env : Env) (parent : ComponentVersion) (rank : String → String → Nat) (fuel : Nat)
       (refs : List OcmReference) (store : Store),
       (∀ nm vr d, env nm vr = some d →
          ∀ r ∈ d.references, rank r.componentName r.version < rank nm vr) →
       (∀ r ∈ refs, rank r.componentName r.version < fuel) →
       (parseReferences env parent fuel refs store).2 ≠ .diverge)
    ∧ (∀ (fuel : Nat) (store : Store),
       (parseReferences cycleEnv plainRoot fuel [cycleRef] store).2 = .diverge) :=
  ⟨fun env parent rank fuel refs store h1 h2 =>
     parseReferences_no_diverge env parent rank h1 fuel refs store h2,
   cycle_expansion_diverges⟩

/-- C9 witness: the acyclic chain fixture expands without divergence at
fuel 2, while the cyclic fixture diverges at fuel 3. -/
theorem expansion_unbounded_recursion_witness :
    (parseReferences chainEnv plainRoot 2 [chainRefA] ⟨[]⟩).2 ≠ .diverge
    ∧ (parseReferences cycleEnv plainRoot 3 [cycleRef] ⟨[]⟩).2 = .diverge :=
  ⟨expansion_unbounded_recursion.1 chainEnv plainRoot chainRank 2 [chainRefA] ⟨[]⟩
     (by
       intro nm vr d h r hr
       unfold chainEnv at h
       split at h
       · cases h
         simp at hr
         subst hr
         simp [chainRank]
       · cases h
         simp at hr
       · cases h)
     (by
       intro r hr
       simp at hr
       subst hr
       decide),
   expansion_unbounded_recursion.2 3 ⟨[]⟩⟩

/-- C4 counterexample: a child record that already exists under the
computed key keeps its stale payload "OLD" even though the freshly fetched
descriptor carries payload "NEW" — the child upsert's mutate function is
empty, so nothing is refreshed (the walk still succeeds and reports the
child). -/
theorem child_record_not_refreshed_counterexample :
    ((parseReferences newPayloadEnv plainRoot 3 [cRef] ⟨[(cKey, staleRecord)]⟩).1).find? cKey
      = some staleRecord
    ∧ staleRecord.spec.payload = "OLD"
    ∧ (newPayloadEnv "comp/c" "v1").map Descriptor.payload = some "NEW"
    ∧ (parseReferences newPayloadEnv plainRoot 3 [cRef] ⟨[(cKey, staleRecord)]⟩).2
      = .ok [Reference.mk "c" "v1" "comp-c-v1-14695981039346656037" "default" [] []] :=
  ⟨rfl, rfl, rfl, rfl⟩

/-- C4 amended: when a record with the computed key already exists, the
root record is updated in place — its spec payload is refreshed from the
newly fetched descriptor, and with expansion disabled the store's entry
count is unchanged (no duplicate) — while a child record reached during
expansion is left entirely unchanged: not duplicated, but not refreshed
either. -/
theorem upsert_existing_amended :
    (∀ (env : Env) (cv : ComponentVersion) (fuel : Nat) (store : Store) (d : Descriptor)
       (old : ComponentDescriptor),
       env cv.spec.component cv.spec.version = some d →
       d.convertsOk = true →
       store.find? ⟨cv.ns, constructComponentName d.name d.version []⟩ = some old →
       (∃ r, ((reconcile env cv fuel store).1).find?
           ⟨cv.ns, constructComponentName d.name d.version []⟩ = some r
         ∧ r.spec = ⟨d.payload, d.version⟩)
       ∧ (cv.spec.expand = false →
           ((reconcile env cv fuel store).1).entries.length = store.entries.length))
    ∧ (∀ (env : Env) (parent : ComponentVersion) (fuel : Nat) (refs : List OcmReference)
       (store : Store) (k : Key) (v : ComponentDescriptor),
       store.find? k = some v →
       ((parseReferences env parent fuel refs store).1).find? k = some v) := by
  constructor
  · intro env cv fuel store d old h1 h2 h3
    have hco : ¬d.convertsOk = false := by simp [h2]
    constructor
    · obtain ⟨r, hr, hrs⟩ := createOrUpdate_rootMutate_find store
        ⟨cv.ns, constructComponentName d.name d.version []⟩ ⟨⟨"", ""⟩, [], true⟩
        cv.name ⟨d.payload, d.version⟩
      refine ⟨r, ?_, hrs⟩
      by_cases hexp : cv.spec.expand = false
      · simpa [reconcile, h1, hco, hexp] using hr
      · cases hp : parseReferences env cv fuel d.references
            ((createOrUpdate store ⟨cv.ns, constructComponentName d.name d.version []⟩
              ⟨⟨"", ""⟩, [], true⟩ (rootMutate cv.name ⟨d.payload, d.version⟩)).1) with
        | mk s2 pres =>
          have hx := parseReferences_preserve env cv fuel d.references _
            ⟨cv.ns, constructComponentName d.name d.version []⟩ r hr
          rw [hp] at hx
          cases pres <;> simpa [reconcile, h1, hco, hexp, hp] using hx
    · intro hexp
      have hx := createOrUpdate_length_of_found store
        ⟨cv.ns, constructComponentName d.name d.version []⟩ ⟨⟨"", ""⟩, [], true⟩ old
        (rootMutate cv.name ⟨d.payload, d.version⟩) h3
      simpa [reconcile, h1, hco, hexp] using hx
  · exact fun env parent => parseReferences_preserve env parent

/-- C4 amended witness: concrete instantiation — the root record at the
stale key is refreshed to payload "NEW" with no change in entry count, and
the same stale record reached as a child is returned untouched. -/
theorem upsert_existing_amended_witness :
    (newPayloadEnv newPayloadRoot.spec.component newPayloadRoot.spec.version
       = some ⟨"comp/c", "v1", "NEW", true, []⟩)
    ∧ ((⟨"comp/c", "v1", "NEW", true, []⟩ : Descriptor).convertsOk = true)
    ∧ ((⟨[(cKey, staleRecord)]⟩ : Store).find?
        ⟨newPayloadRoot.ns, constructComponentName "comp/c" "v1" []⟩ = some staleRecord)
    ∧ ((∃ r, ((reconcile newPayloadEnv newPayloadRoot 1 ⟨[(cKey, staleRecord)]⟩).1).find?
          ⟨newPayloadRoot.ns, constructComponentName "comp/c" "v1" []⟩ = some r
        ∧ r.spec = ⟨"NEW", "v1"⟩)
       ∧ (newPayloadRoot.spec.expand = false →
          ((reconcile newPayloadEnv newPayloadRoot 1 ⟨[(cKey, staleRecord)]⟩).1).entries.length
            = (⟨[(cKey, staleRecord)]⟩ : Store).entries.length))
    ∧ ((parseReferences newPayloadEnv plainRoot 1 [cRef] ⟨[(cKey, staleRecord)]⟩).1).find? cKey
        = some staleRecord :=
  ⟨rfl, rfl, rfl,
   upsert_existing_amended.1 newPayloadEnv newPayloadRoot 1 ⟨[(cKey, staleRecord)]⟩
     ⟨"comp/c", "v1", "NEW", true, []⟩ staleRecord rfl rfl rfl,
   upsert_existing_amended.2 newPayloadEnv plainRoot 1 [cRef] ⟨[(cKey, staleRecord)]⟩ cKey
     staleRecord rfl⟩

/-- C5 counterexample: with `references.expand = false` and a root whose
current status holds a non-empty stale Reference tree, reconcile persists
only the root record and creates none of the three declared children, but
returns the object exactly as it was: the status is never committed, and in
particular the stale non-empty Reference tree is not replaced by an empty
one. -/
theorem expand_false_status_not_committed_counterexample :
    (reconcile abcEnv noExpandRoot 5 ⟨[]⟩).2.1 = noExpandRoot
    ∧ noExpandRoot.status.componentDescriptor.references ≠ []
    ∧ (reconcile abcEnv noExpandRoot 5 ⟨[]⟩).2.2 = (⟨10⟩, .ok)
    ∧ ((reconcile abcEnv noExpandRoot 5 ⟨[]⟩).1).find?
        ⟨"default", constructComponentName "comp/a" "v1" []⟩ = none
    ∧ ((reconcile abcEnv noExpandRoot 5 ⟨[]⟩).1).find?
        ⟨"default", constructComponentName "comp/b" "v1" []⟩ = none
    ∧ ((reconcile abcEnv noExpandRoot 5 ⟨[]⟩).1).find?
        ⟨"default", constructComponentName "comp/c" "v1" [("pos", "1")]⟩ = none :=
  ⟨rfl, by simp [noExpandRoot, Reference.references], rfl, rfl, rfl, rfl⟩

/-- C5 amended: when `references.expand` is false, reconcile persists the
root's own ComponentDescriptor record (spec refreshed from the fetched
descriptor), touches no other key (no child records), and returns success
with a retry after the configured interval — without committing status: the
object is returned exactly as it came in. -/
theorem expand_false_amended (env : Env) (cv : ComponentVersion) (fuel : Nat) (store : Store)
    (d : Descriptor)
    (h1 : env cv.spec.component cv.spec.version = some d)
    (h2 : d.convertsOk = true)
    (h3 : cv.spec.expand = false) :
    (reconcile env cv fuel store).2.1 = cv
    ∧ (reconcile env cv fuel store).2.2 = (⟨cv.GetRequeueAfter⟩, .ok)
    ∧ (∃ r, ((reconcile env cv fuel store).1).find?
        ⟨cv.ns, constructComponentName d.name d.version []⟩ = some r
       ∧ r.spec = ⟨d.payload, d.version⟩)
    ∧ (∀ k, k ≠ ⟨cv.ns, constructComponentName d.name d.version []⟩ →
        ((reconcile env cv fuel store).1).find? k = store.find? k) := by
  have hco : ¬d.convertsOk = false := by simp [h2]
  refine ⟨?_, ?_, ?_, ?_⟩
  · simp [reconcile, h1, hco, h3]
  · simp [reconcile, h1, hco, h3]
  · obtain ⟨r, hr, hrs⟩ := createOrUpdate_rootMutate_find store
      ⟨cv.ns, constructComponentName d.name d.version []⟩ ⟨⟨"", ""⟩, [], true⟩
      cv.name ⟨d.payload, d.version⟩
    exact ⟨r, by simpa [reconcile, h1, hco, h3] using hr, hrs⟩
  · intro k hk
    have hx := createOrUpdate_preserve_ne store
      ⟨cv.ns, constructComponentName d.name d.version []⟩ ⟨⟨"", ""⟩, [], true⟩
      (rootMutate cv.name ⟨d.payload, d.version⟩) k hk
    simpa [reconcile, h1, hco, h3] using hx

/-- C5 amended witness: concrete instantiation on the three-child root
with expansion disabled. -/
theorem expand_false_amended_witness :
    (abcEnv noExpandRoot.spec.component noExpandRoot.spec.version = some abcRootDescriptor)
    ∧ abcRootDescriptor.convertsOk = true
    ∧ noExpandRoot.spec.expand = false
    ∧ (reconcile abcEnv noExpandRoot 5 ⟨[]⟩).2.1 = noExpandRoot
    ∧ (reconcile abcEnv noExpandRoot 5 ⟨[]⟩).2.2 = (⟨noExpandRoot.GetRequeueAfter⟩, .ok)
    ∧ (∃ r, ((reconcile abcEnv noExpandRoot 5 ⟨[]⟩).1).find?
        ⟨noExpandRoot.ns, constructComponentName abcRootDescriptor.name abcRootDescriptor.version []⟩
          = some r
       ∧ r.spec = ⟨abcRootDescriptor.payload, abcRootDescriptor.version⟩)
    ∧ (∀ k, k ≠ ⟨noExpandRoot.ns,
          constructComponentName abcRootDescriptor.name abcRootDescriptor.version []⟩ →
        ((reconcile abcEnv noExpandRoot 5 ⟨[]⟩).1).find? k = (⟨[]⟩ : Store).find? k) := by
  have h := expand_false_amended abcEnv noExpandRoot 5 ⟨[]⟩ abcRootDescriptor rfl rfl rfl
  exact ⟨rfl, rfl, rfl, h.1, h.2.1, h.2.2.1, h.2.2.2⟩

end Ocm
